import Mathlib

/-!
Shallow embedding of the `queriable_storage` Rust crate (src/lib.rs):
an immutable record store, ordered secondary indices (`SortedIndex`,
backed by a `BTreeMap<K, Vec<usize>>`), position-set query results
(`DataFilter`, a sorted `Vec<usize>`), and the `&` / `|` combinators.

Records are a list, positions are `Nat` list indices, the B-tree map is
a key-sorted association list, and the fallible pieces (`BTreeMap::range`,
which panics on a reversed range, and `Vec` indexing, which panics out of
bounds) return `Option`.
-/

namespace QS

/-- Rust `std::ops::Bound<K>`: one end of a range query. -/
inductive RangeBound (K : Type u) where
  | unbounded : RangeBound K
  | included (k : K) : RangeBound K
  | excluded (k : K) : RangeBound K
deriving DecidableEq, Repr

variable {T : Type u} {K : Type v}

/-- Does key `k` satisfy the lower bound `b`? -/
def RangeBound.satLower [LinearOrder K] (b : RangeBound K) (k : K) : Bool :=
  match b with
  | .unbounded => true
  | .included l => decide (l ≤ k)
  | .excluded l => decide (l < k)

/-- Does key `k` satisfy the upper bound `b`? -/
def RangeBound.satUpper [LinearOrder K] (b : RangeBound K) (k : K) : Bool :=
  match b with
  | .unbounded => true
  | .included u => decide (k ≤ u)
  | .excluded u => decide (k < u)

/-- The non-panicking condition of Rust `BTreeMap::range`: it panics when
range start > end, or when start = end with both bounds `Excluded`. -/
def rangeValid [LinearOrder K] (lb ub : RangeBound K) : Bool :=
  match lb, ub with
  | .unbounded, _ => true
  | _, .unbounded => true
  | .excluded s, .excluded e => decide (s < e)
  | .included s, .included e => decide (s ≤ e)
  | .included s, .excluded e => decide (s ≤ e)
  | .excluded s, .included e => decide (s ≤ e)

/-- `DataFilter` (src/lib.rs): a position set, the sorted `indices` vector. -/
structure DataFilter where
  indices : List Nat
deriving DecidableEq, Repr

instance : Inhabited DataFilter := ⟨⟨[]⟩⟩

/-- `DataFilter::default()`: the empty position set. -/
def DataFilter.default : DataFilter := ⟨[]⟩

/-- `DataFilter::from_unsorted` (src/lib.rs:121-128): collect and sort. -/
def DataFilter.from_unsorted (l : List Nat) : DataFilter :=
  ⟨l.insertionSort (· ≤ ·)⟩

/-- The `while other_iterator.peek() < index` skip loop shared by both
combinators: drop leading entries below `x`. -/
def skipBelow (x : Nat) : List Nat → List Nat
  | [] => []
  | y :: ys => if y < x then skipBelow x ys else y :: ys

/-- The `bitand` two-pointer loop (src/lib.rs:138-152) on the raw index
lists: for each `x` of the left operand, skip right-hand entries `< x`,
then emit `x` when the right-hand head equals `x` (peeked, not consumed). -/
def bitandL : List Nat → List Nat → List Nat
  | [], _ => []
  | x :: xs, ys =>
    match skipBelow x ys with
    | [] => []
    | y :: tl => if y = x then x :: bitandL xs (y :: tl) else bitandL xs (y :: tl)

/-- The `bitor` two-pointer loop (src/lib.rs:158-185) on the raw index
lists: emit right-hand entries below the current left entry, drop a
right-hand entry equal to it, then emit the left entry; finally flush. -/
def bitorL : List Nat → List Nat → List Nat
  | [], ys => ys
  | x :: xs, [] => x :: bitorL xs []
  | x :: xs, y :: ys =>
    if y < x then y :: bitorL (x :: xs) ys
    else if y = x then bitorL (x :: xs) ys
    else x :: bitorL xs (y :: ys)
termination_by xs ys => xs.length + ys.length

instance : AndOp DataFilter := ⟨fun a b => ⟨bitandL a.indices b.indices⟩⟩

instance : OrOp DataFilter := ⟨fun a b => ⟨bitorL a.indices b.indices⟩⟩

theorem DataFilter.and_def (a b : DataFilter) : a &&& b = ⟨bitandL a.indices b.indices⟩ := rfl

theorem DataFilter.or_def (a b : DataFilter) : a ||| b = ⟨bitorL a.indices b.indices⟩ := rfl

/-- `SortedIndex` (src/lib.rs:41-43): the `BTreeMap<K, Vec<usize>>` as a
key-sorted association list of (key, ascending position group). -/
structure SortedIndex (K : Type v) where
  pairs : List (K × List Nat)
deriving Repr

/-- `BTreeMap::entry(key).or_insert_with(vec![]).push(index)`: insert
position `i` under key `k`, appending to the existing group when the key
is present and creating a fresh singleton group at the sorted spot
otherwise. -/
def insertPos [LinearOrder K] (k : K) (i : Nat) : List (K × List Nat) → List (K × List Nat)
  | [] => [(k, [i])]
  | (k', g) :: rest =>
    if k < k' then (k, [i]) :: (k', g) :: rest
    else if k = k' then (k', g ++ [i]) :: rest
    else (k', g) :: insertPos k i rest

/-- The `for (index, item) in data_store.items().enumerate()` build loop of
`SortedIndex::new` (src/lib.rs:50-62), carrying the running position. -/
def buildPairs [LinearOrder K] (proj : T → K) : Nat → List T → List (K × List Nat) → List (K × List Nat)
  | _, [], acc => acc
  | i, t :: rest, acc => buildPairs proj (i + 1) rest (insertPos (proj t) i acc)

/-- `SortedIndex::new` (src/lib.rs:50-62). -/
def SortedIndex.new [LinearOrder K] (store : List T) (proj : T → K) : SortedIndex K :=
  ⟨buildPairs proj 0 store []⟩

/-- The positions whose key group survives `pairs.range(range)`, flattened
in key order (the body of `filter_range`, src/lib.rs:69-73), before the
re-sort of `from_unsorted`. -/
def SortedIndex.rangePositions [LinearOrder K] (idx : SortedIndex K) (lb ub : RangeBound K) : List Nat :=
  (idx.pairs.filter (fun p => lb.satLower p.1 && ub.satUpper p.1)).flatMap (fun p => p.2)

/-- `SortedIndex::filter_range` (src/lib.rs:65-75): `BTreeMap::range` over
the bound pair — `none` models its panic on an invalid range — then
flatten the matched groups and re-sort with `from_unsorted`. -/
def SortedIndex.filter_range [LinearOrder K] (idx : SortedIndex K) (lb ub : RangeBound K) : Option DataFilter :=
  cond (rangeValid lb ub) (some (DataFilter.from_unsorted (idx.rangePositions lb ub))) none

/-- `SortedIndex::filter_between` (src/lib.rs:78-80): both bounds inclusive. -/
def SortedIndex.filter_between [LinearOrder K] (idx : SortedIndex K) (lower_inclusive upper_inclusive : K) : Option DataFilter :=
  idx.filter_range (.included lower_inclusive) (.included upper_inclusive)

/-- `SortedIndex::filter_eq` (src/lib.rs:83-89): the group stored under the
key, re-sorted, or the default (empty) filter when the key is absent. -/
def SortedIndex.filter_eq [LinearOrder K] (idx : SortedIndex K) (value : K) : DataFilter :=
  match idx.pairs.find? (fun p => decide (p.1 = value)) with
  | some p => DataFilter.from_unsorted p.2
  | none => DataFilter.default

/-- `SortedIndex::filter_gt` (src/lib.rs:92-94); its range `(Excluded l,
Unbounded)` is always valid so the `BTreeMap::range` panic is unreachable
and the result is total. -/
def SortedIndex.filter_gt [LinearOrder K] (idx : SortedIndex K) (lower_limit : K) : DataFilter :=
  DataFilter.from_unsorted (idx.rangePositions (.excluded lower_limit) .unbounded)

/-- `SortedIndex::filter_gte` (src/lib.rs:97-99). -/
def SortedIndex.filter_gte [LinearOrder K] (idx : SortedIndex K) (lower_limit : K) : DataFilter :=
  DataFilter.from_unsorted (idx.rangePositions (.included lower_limit) .unbounded)

/-- `SortedIndex::filter_lt` (src/lib.rs:102-104). -/
def SortedIndex.filter_lt [LinearOrder K] (idx : SortedIndex K) (upper_limit : K) : DataFilter :=
  DataFilter.from_unsorted (idx.rangePositions .unbounded (.excluded upper_limit))

/-- `SortedIndex::filter_lte` (src/lib.rs:107-109). -/
def SortedIndex.filter_lte [LinearOrder K] (idx : SortedIndex K) (upper_limit : K) : DataFilter :=
  DataFilter.from_unsorted (idx.rangePositions .unbounded (.included upper_limit))

/-- `QueriableDataStore<T>` (src/lib.rs:8-10). -/
structure QueriableDataStore (T : Type u) where
  items : List T

/-- `QueriableDataStore::filter` (src/lib.rs:14-16): map each position of
the filter to `&self.items[v]`; `none` models the out-of-bounds panic of
`Vec` indexing on any position past the end. -/
def QueriableDataStore.filter (store : QueriableDataStore T) (f : DataFilter) : Option (List T) :=
  f.indices.mapM (fun v => store.items[v]?)

/-- `QueriableDataStore::get_index` (src/lib.rs:19-25). -/
def QueriableDataStore.get_index [LinearOrder K] (store : QueriableDataStore T) (proj : T → K) : SortedIndex K :=
  SortedIndex.new store.items proj

/-- Modelled from the spec: `SortedIndex::first_n` is code of this
repository missing from src/lib.rs (src/tests/test.rs calls it). Spec
§4.2: select the smallest `n` keys of the index (the map iterates keys in
ascending order, so these are the first `n` entries) and return the union
of their position groups, re-sorted to ascending position order; a
key-group is never split. -/
def SortedIndex.first_n [LinearOrder K] (idx : SortedIndex K) (n : Nat) : DataFilter :=
  DataFilter.from_unsorted ((idx.pairs.take n).flatMap (fun pr => pr.2))

/-- Modelled from the spec: `SortedIndex::first` selects the single
smallest key, i.e. `first_n 1`. -/
def SortedIndex.first [LinearOrder K] (idx : SortedIndex K) : DataFilter :=
  idx.first_n 1

/-- Modelled from the spec: `SortedIndex::last_n` (missing from
src/lib.rs) selects the largest `n` keys — the last `n` entries of the
ascending key order — and returns the union of their groups re-sorted to
position order. -/
def SortedIndex.last_n [LinearOrder K] (idx : SortedIndex K) (n : Nat) : DataFilter :=
  DataFilter.from_unsorted
    ((idx.pairs.drop (idx.pairs.length - n)).flatMap (fun pr => pr.2))

/-- Modelled from the spec: `SortedIndex::last` = `last_n 1`. -/
def SortedIndex.last [LinearOrder K] (idx : SortedIndex K) : DataFilter :=
  idx.last_n 1

/-- Modelled from the spec (§4.3, step 2): the N-ary conjunction driver.
For each candidate of the driving sequence, every other cursor advances
strictly forward past the entries below the candidate; the candidate is
accepted only if every cursor then lands exactly on it. -/
def naryGo : List Nat → List (List Nat) → List Nat
  | [], _ => []
  | c :: cs, cursors =>
    if (cursors.map (skipBelow c)).all (fun l => decide (l.head? = some c)) then
      c :: naryGo cs (cursors.map (skipBelow c))
    else naryGo cs (cursors.map (skipBelow c))

/-- Modelled from the spec (§4.3, step 1): sort the collection by
ascending cardinality, smallest first. -/
def sortByLen (fs : List DataFilter) : List DataFilter :=
  fs.insertionSort (fun a b => a.indices.length ≤ b.indices.length)

/-- Modelled from the spec: the N-ary conjunction over a collection of
Position Sets — missing from src/lib.rs, which only has the pairwise
`&` — driving iteration from the smallest set after the cardinality
sort; the empty collection yields the empty Position Set (§7). -/
def naryAnd (fs : List DataFilter) : DataFilter :=
  match sortByLen fs with
  | [] => DataFilter.default
  | f :: rest => ⟨naryGo f.indices (rest.map (fun g => g.indices))⟩

/-- The fold of pairwise intersection over a collection, the reference
point of the spec's order-independence law (§8). -/
def foldAnd : List DataFilter → DataFilter
  | [] => DataFilter.default
  | f :: fs => fs.foldl (fun acc g => acc &&& g) f

/-- Modelled from the spec (§4.1): the multi-filter form of
`store.filter`, interpreting the collection as its conjunction. -/
def QueriableDataStore.filterMany (store : QueriableDataStore T)
    (fs : List DataFilter) : Option (List T) :=
  store.filter (naryAnd fs)

end QS

namespace QS

open List

/-! ### Sorted-list helpers -/

theorem skipBelow_sublist (x : Nat) : ∀ ys : List Nat, skipBelow x ys <+ ys := by
  intro ys
  induction ys with
  | nil => simp [skipBelow]
  | cons y tl ih =>
    rw [skipBelow]
    by_cases h : y < x
    · rw [if_pos h]
      exact ih.cons y
    · rw [if_neg h]

theorem mem_skipBelow {x p : Nat} {ys : List Nat} (hs : Sorted (· < ·) ys) :
    p ∈ skipBelow x ys ↔ p ∈ ys ∧ x ≤ p := by
  induction ys with
  | nil => simp [skipBelow]
  | cons y tl ih =>
    rw [skipBelow]
    by_cases h : y < x
    · rw [if_pos h, ih hs.of_cons]
      constructor
      · rintro ⟨h1, h2⟩
        exact ⟨mem_cons_of_mem _ h1, h2⟩
      · rintro ⟨h1, h2⟩
        rcases mem_cons.mp h1 with rfl | h1
        · exact absurd h (not_lt.mpr h2)
        · exact ⟨h1, h2⟩
    · rw [if_neg h]
      constructor
      · intro h1
        refine ⟨h1, ?_⟩
        rcases mem_cons.mp h1 with rfl | h1
        · exact not_lt.mp h
        · exact le_of_lt (lt_of_le_of_lt (not_lt.mp h) (rel_of_sorted_cons hs _ h1))
      · exact fun h1 => h1.1

theorem head_skipBelow {x : Nat} {ys : List Nat} (hs : Sorted (· < ·) ys) :
    (skipBelow x ys).head? = some x ↔ x ∈ ys := by
  induction ys with
  | nil => simp [skipBelow]
  | cons y tl ih =>
    rw [skipBelow]
    by_cases h : y < x
    · rw [if_pos h, ih hs.of_cons, mem_cons]
      have : x ≠ y := fun e => absurd h (by simp [e])
      simp [this]
    · rw [if_neg h]
      simp only [head?_cons, Option.some.injEq, mem_cons]
      constructor
      · intro h1
        exact Or.inl h1.symm
      · rintro (rfl | h1)
        · rfl
        · exact absurd (lt_of_le_of_lt (not_lt.mp h) (rel_of_sorted_cons hs _ h1)) (lt_irrefl x)

theorem skipBelow_sorted {x : Nat} {ys : List Nat} (hs : Sorted (· < ·) ys) :
    Sorted (· < ·) (skipBelow x ys) :=
  hs.sublist (skipBelow_sublist x ys)

theorem eq_of_sorted_of_mem_iff {l₁ l₂ : List Nat} (h₁ : Sorted (· < ·) l₁)
    (h₂ : Sorted (· < ·) l₂) (h : ∀ a, a ∈ l₁ ↔ a ∈ l₂) : l₁ = l₂ :=
  eq_of_perm_of_sorted ((perm_ext_iff_of_nodup h₁.nodup h₂.nodup).mpr h)
    (h₁.imp le_of_lt) (h₂.imp le_of_lt)

/-! ### `from_unsorted` -/

theorem from_unsorted_perm (l : List Nat) : (DataFilter.from_unsorted l).indices ~ l :=
  perm_insertionSort _ l

theorem from_unsorted_sorted_le (l : List Nat) :
    Sorted (· ≤ ·) (DataFilter.from_unsorted l).indices :=
  sorted_insertionSort _ l

theorem from_unsorted_nodup {l : List Nat} (h : l.Nodup) :
    (DataFilter.from_unsorted l).indices.Nodup :=
  (from_unsorted_perm l).nodup_iff.mpr h

theorem from_unsorted_sorted {l : List Nat} (h : l.Nodup) :
    Sorted (· < ·) (DataFilter.from_unsorted l).indices :=
  ((from_unsorted_sorted_le l).and (from_unsorted_nodup h)).imp
    (fun hab => lt_of_le_of_ne hab.1 hab.2)

theorem mem_from_unsorted {l : List Nat} {p : Nat} :
    p ∈ (DataFilter.from_unsorted l).indices ↔ p ∈ l :=
  (from_unsorted_perm l).mem_iff

/-! ### The `&` combinator -/

theorem bitandL_cons_nil {x : Nat} {xs ys : List Nat} (hd : skipBelow x ys = []) :
    bitandL (x :: xs) ys = [] := by
  rw [bitandL, hd]

theorem bitandL_cons_eq {x : Nat} {xs ys tl : List Nat} (hd : skipBelow x ys = x :: tl) :
    bitandL (x :: xs) ys = x :: bitandL xs (x :: tl) := by
  rw [bitandL, hd]
  simp

theorem bitandL_cons_ne {x y : Nat} {xs ys tl : List Nat} (hd : skipBelow x ys = y :: tl)
    (hne : y ≠ x) : bitandL (x :: xs) ys = bitandL xs (y :: tl) := by
  rw [bitandL, hd]
  simp [hne]

theorem bitandL_sublist (xs : List Nat) : ∀ ys, bitandL xs ys <+ xs := by
  induction xs with
  | nil => intro ys; simp [bitandL]
  | cons x xs ih =>
    intro ys
    cases hd : skipBelow x ys with
    | nil =>
      rw [bitandL_cons_nil hd]
      exact nil_sublist _
    | cons y tl =>
      by_cases hyx : y = x
      · subst hyx
        rw [bitandL_cons_eq hd]
        exact (ih (y :: tl)).cons₂ y
      · rw [bitandL_cons_ne hd hyx]
        exact (ih (y :: tl)).cons x

theorem bitandL_sorted {xs : List Nat} (hx : Sorted (· < ·) xs) (ys : List Nat) :
    Sorted (· < ·) (bitandL xs ys) :=
  hx.sublist (bitandL_sublist xs ys)

theorem mem_bitandL {p : Nat} {xs ys : List Nat} (hx : Sorted (· < ·) xs)
    (hy : Sorted (· < ·) ys) : p ∈ bitandL xs ys ↔ p ∈ xs ∧ p ∈ ys := by
  induction xs generalizing ys with
  | nil => simp [bitandL]
  | cons x xs ih =>
    have hmemsk : ∀ q : Nat, q ∈ skipBelow x ys ↔ q ∈ ys ∧ x ≤ q := fun q => mem_skipBelow hy
    cases hd : skipBelow x ys with
    | nil =>
      rw [bitandL_cons_nil hd]
      simp only [not_mem_nil, false_iff]
      rintro ⟨h1, h2⟩
      have hxp : x ≤ p := by
        rcases mem_cons.mp h1 with rfl | h1
        · exact le_refl p
        · exact le_of_lt (rel_of_sorted_cons hx _ h1)
      have := (hmemsk p).mpr ⟨h2, hxp⟩
      rw [hd] at this
      exact absurd this (not_mem_nil p)
    | cons y tl =>
      have hytl : Sorted (· < ·) (y :: tl) := hd ▸ skipBelow_sorted hy
      have hmem : ∀ q : Nat, q ∈ y :: tl ↔ q ∈ ys ∧ x ≤ q := fun q => hd ▸ hmemsk q
      by_cases hyx : y = x
      · subst hyx
        rw [bitandL_cons_eq hd, mem_cons, ih hx.of_cons hytl]
        constructor
        · rintro (rfl | ⟨h1, h2⟩)
          · exact ⟨mem_cons_self _ _, ((hmem p).mp (mem_cons_self _ _)).1⟩
          · exact ⟨mem_cons_of_mem _ h1, ((hmem p).mp h2).1⟩
        · rintro ⟨h1, h2⟩
          rcases mem_cons.mp h1 with rfl | h1
          · exact Or.inl rfl
          · exact Or.inr ⟨h1, (hmem p).mpr ⟨h2, le_of_lt (rel_of_sorted_cons hx _ h1)⟩⟩
      · have hxy : x < y :=
          lt_of_le_of_ne ((hmem y).mp (mem_cons_self _ _)).2 (Ne.symm hyx)
        rw [bitandL_cons_ne hd hyx, ih hx.of_cons hytl]
        constructor
        · rintro ⟨h1, h2⟩
          exact ⟨mem_cons_of_mem _ h1, ((hmem p).mp h2).1⟩
        · rintro ⟨h1, h2⟩
          rcases mem_cons.mp h1 with rfl | h1
          · exfalso
            have hin : p ∈ y :: tl := (hmem p).mpr ⟨h2, le_refl p⟩
            rcases mem_cons.mp hin with rfl | h3
            · exact absurd hxy (lt_irrefl p)
            · exact absurd (lt_trans hxy (rel_of_sorted_cons hytl _ h3)) (lt_irrefl p)
          · exact ⟨h1, (hmem p).mpr ⟨h2, le_of_lt (rel_of_sorted_cons hx _ h1)⟩⟩

/-! ### The `|` combinator -/

theorem mem_bitorL {p : Nat} : ∀ xs ys : List Nat, p ∈ bitorL xs ys ↔ p ∈ xs ∨ p ∈ ys := by
  intro xs ys
  induction xs, ys using bitorL.induct with
  | case1 ys => simp [bitorL]
  | case2 x xs ih =>
    rw [bitorL]
    simp only [mem_cons, ih, not_mem_nil, or_false]
  | case3 x xs y ys h ih =>
    rw [bitorL, if_pos h]
    simp only [mem_cons, ih, mem_cons]
    tauto
  | case4 xs y ys h1 ih =>
    rw [bitorL, if_neg h1, if_pos rfl]
    simp only [ih, mem_cons]
    tauto
  | case5 x xs y ys h1 h2 ih =>
    rw [bitorL, if_neg h1, if_neg h2]
    simp only [mem_cons, ih, mem_cons]
    tauto

theorem bitorL_sorted : ∀ xs ys : List Nat,
    Sorted (· < ·) xs → Sorted (· < ·) ys → Sorted (· < ·) (bitorL xs ys) := by
  intro xs ys
  induction xs, ys using bitorL.induct with
  | case1 ys =>
    intro _ hy
    rw [bitorL]
    exact hy
  | case2 x xs ih =>
    intro hx _
    rw [bitorL]
    rw [sorted_cons]
    refine ⟨?_, ih hx.of_cons sorted_nil⟩
    intro b hb
    rcases (mem_bitorL xs []).mp hb with hb | hb
    · exact rel_of_sorted_cons hx _ hb
    · exact absurd hb (not_mem_nil b)
  | case3 x xs y ys h ih =>
    intro hx hy
    rw [bitorL, if_pos h, sorted_cons]
    refine ⟨?_, ih hx hy.of_cons⟩
    intro b hb
    rcases (mem_bitorL (x :: xs) ys).mp hb with hb | hb
    · rcases mem_cons.mp hb with rfl | hb
      · exact h
      · exact lt_trans h (rel_of_sorted_cons hx _ hb)
    · exact rel_of_sorted_cons hy _ hb
  | case4 xs y ys h1 ih =>
    intro hx hy
    rw [bitorL, if_neg h1, if_pos rfl]
    exact ih hx hy.of_cons
  | case5 x xs y ys h1 h2 ih =>
    intro hx hy
    have hxy : x < y := lt_of_le_of_ne (not_lt.mp h1) (Ne.symm h2)
    rw [bitorL, if_neg h1, if_neg h2, sorted_cons]
    refine ⟨?_, ih hx.of_cons hy⟩
    intro b hb
    rcases (mem_bitorL xs (y :: ys)).mp hb with hb | hb
    · exact rel_of_sorted_cons hx _ hb
    · rcases mem_cons.mp hb with rfl | hb
      · exact hxy
      · exact lt_trans hxy (rel_of_sorted_cons hy _ hb)

theorem bitorL_nodup {xs ys : List Nat} (hx : Sorted (· < ·) xs) (hy : Sorted (· < ·) ys) :
    (bitorL xs ys).Nodup :=
  (bitorL_sorted xs ys hx hy).nodup

/-! ### Positions of records satisfying a predicate -/

/-- Specification-side view of an index group: the positions (offset by
`i`) of the records of `l` whose projection satisfies `q`, in ascending
position order. -/
def positionsSat (q : T → Bool) : Nat → List T → List Nat
  | _, [] => []
  | i, t :: rest =>
    if q t then i :: positionsSat q (i + 1) rest else positionsSat q (i + 1) rest

theorem mem_positionsSat {q : T → Bool} {p : Nat} : ∀ (l : List T) (i : Nat),
    p ∈ positionsSat q i l ↔ ∃ j, ∃ h : j < l.length, p = i + j ∧ q (l.get ⟨j, h⟩) := by
  intro l
  induction l with
  | nil => intro i; simp [positionsSat]
  | cons t rest ih =>
    intro i
    rw [positionsSat]
    by_cases hq : q t
    · rw [if_pos hq, mem_cons, ih (i + 1)]
      constructor
      · rintro (rfl | ⟨j, h, rfl, hqq⟩)
        · exact ⟨0, by simp, by simp, by simpa using hq⟩
        · exact ⟨j + 1, by simpa using h, by omega, hqq⟩
      · rintro ⟨j, h, rfl, hqq⟩
        cases j with
        | zero => exact Or.inl (by simp)
        | succ j => exact Or.inr ⟨j, by simpa using h, by omega, hqq⟩
    · rw [if_neg hq, ih (i + 1)]
      constructor
      · rintro ⟨j, h, rfl, hqq⟩
        exact ⟨j + 1, by simpa using h, by omega, hqq⟩
      · rintro ⟨j, h, rfl, hqq⟩
        cases j with
        | zero => exact absurd (by simpa using hqq) hq
        | succ j => exact ⟨j, by simpa using h, by omega, hqq⟩

theorem positionsSat_ge {q : T → Bool} : ∀ (l : List T) (i : Nat),
    ∀ p ∈ positionsSat q i l, i ≤ p := by
  intro l
  induction l with
  | nil => intro i p hp; simp [positionsSat] at hp
  | cons t rest ih =>
    intro i p hp
    rw [positionsSat] at hp
    by_cases hq : q t
    · rw [if_pos hq] at hp
      rcases mem_cons.mp hp with rfl | hp
      · exact le_refl p
      · exact le_of_lt (lt_of_lt_of_le (Nat.lt_succ_self i) (ih (i + 1) p hp))
    · rw [if_neg hq] at hp
      exact le_of_lt (lt_of_lt_of_le (Nat.lt_succ_self i) (ih (i + 1) p hp))

theorem positionsSat_sorted {q : T → Bool} : ∀ (l : List T) (i : Nat),
    Sorted (· < ·) (positionsSat q i l) := by
  intro l
  induction l with
  | nil => intro i; simp [positionsSat]
  | cons t rest ih =>
    intro i
    rw [positionsSat]
    by_cases hq : q t
    · rw [if_pos hq, sorted_cons]
      exact ⟨fun b hb => lt_of_lt_of_le (Nat.lt_succ_self i) (positionsSat_ge rest (i + 1) b hb),
        ih (i + 1)⟩
    · rw [if_neg hq]
      exact ih (i + 1)

theorem positionsSat_nodup {q : T → Bool} (l : List T) (i : Nat) :
    (positionsSat q i l).Nodup :=
  (positionsSat_sorted l i).nodup

theorem positionsSat_lt {q : T → Bool} {l : List T} {i p : Nat}
    (hp : p ∈ positionsSat q i l) : p < i + l.length := by
  rcases (mem_positionsSat l i).mp hp with ⟨j, h, rfl, _⟩
  omega

/-! ### The association-list map: `groupOf` and `insertPos` -/

section IndexMap

variable {K : Type v} [LinearOrder K]

/-- `BTreeMap::get`: the position group stored under key `k` (empty when
the key is absent). -/
def groupOf (m : List (K × List Nat)) (k : K) : List Nat :=
  match m.find? (fun p => decide (p.1 = k)) with
  | some pr => pr.2
  | none => []

theorem groupOf_nil {k : K} : groupOf ([] : List (K × List Nat)) k = [] := rfl

theorem groupOf_cons_self {k : K} {g : List Nat} {rest : List (K × List Nat)} :
    groupOf ((k, g) :: rest) k = g := by
  rw [groupOf, find?_cons_of_pos _ (by simp)]

theorem groupOf_cons_ne {k₀ k : K} {g : List Nat} {rest : List (K × List Nat)}
    (h : k₀ ≠ k) : groupOf ((k₀, g) :: rest) k = groupOf rest k := by
  rw [groupOf, find?_cons_of_neg _ (by simpa using h), groupOf]

theorem groupOf_eq_nil_of_forall_ne {k : K} : ∀ {m : List (K × List Nat)},
    (∀ pr ∈ m, pr.1 ≠ k) → groupOf m k = [] := by
  intro m
  induction m with
  | nil => intro _; rfl
  | cons pr rest ih =>
    intro h
    obtain ⟨k₀, g⟩ := pr
    rw [groupOf_cons_ne (h (k₀, g) (mem_cons_self _ _))]
    exact ih (fun q hq => h q (mem_cons_of_mem _ hq))

theorem mem_groupOf_exists {k : K} {p : Nat} {m : List (K × List Nat)}
    (h : p ∈ groupOf m k) : ∃ g, (k, g) ∈ m ∧ p ∈ g := by
  rw [groupOf] at h
  cases hf : m.find? (fun pr => decide (pr.1 = k)) with
  | none => rw [hf] at h; exact absurd h (not_mem_nil p)
  | some pr =>
    rw [hf] at h
    have hmem : pr ∈ m := mem_of_find?_eq_some hf
    have hkey : pr.1 = k := by simpa using find?_some hf
    exact ⟨pr.2, by rw [← hkey]; exact hmem, h⟩

theorem groupOf_eq_of_mem {k : K} {g : List Nat} : ∀ {m : List (K × List Nat)},
    (m.map Prod.fst).Nodup → (k, g) ∈ m → groupOf m k = g := by
  intro m
  induction m with
  | nil => intro _ h; exact absurd h (not_mem_nil _)
  | cons pr rest ih =>
    intro hnd hmem
    obtain ⟨k₀, g₀⟩ := pr
    have hnd' : (k₀ :: rest.map Prod.fst).Nodup := by simpa using hnd
    rcases mem_cons.mp hmem with heq | hmem
    · injection heq with h1 h2
      subst h1
      subst h2
      exact groupOf_cons_self
    · have hk : k₀ ≠ k := by
        intro e
        apply (nodup_cons.mp hnd').1
        have hm := mem_map_of_mem Prod.fst hmem
        simpa [← e] using hm
      rw [groupOf_cons_ne hk]
      exact ih (nodup_cons.mp hnd').2 hmem

theorem mem_keys_insertPos {k b : K} {i : Nat} : ∀ {m : List (K × List Nat)},
    b ∈ (insertPos k i m).map Prod.fst ↔ b = k ∨ b ∈ m.map Prod.fst := by
  intro m
  induction m with
  | nil => simp [insertPos]
  | cons pr rest ih =>
    obtain ⟨k₀, g₀⟩ := pr
    rw [insertPos]
    rcases lt_trichotomy k k₀ with h | h | h
    · rw [if_pos h]
      simp only [map_cons, mem_cons]
    · subst h
      rw [if_neg (by simp), if_pos rfl]
      simp only [map_cons, mem_cons]
      tauto
    · rw [if_neg (by simp [not_lt_of_gt h]), if_neg (by intro e; exact absurd e.symm (ne_of_lt h))]
      simp only [map_cons, mem_cons, ih]
      tauto

theorem insertPos_keys_sorted {k : K} {i : Nat} : ∀ {m : List (K × List Nat)},
    Sorted (· < ·) (m.map Prod.fst) → Sorted (· < ·) ((insertPos k i m).map Prod.fst) := by
  intro m
  induction m with
  | nil => intro _; simp [insertPos, sorted_singleton]
  | cons pr rest ih =>
    obtain ⟨k₀, g₀⟩ := pr
    intro hs
    rw [insertPos]
    rcases lt_trichotomy k k₀ with h | h | h
    · rw [if_pos h]
      simp only [map_cons] at hs ⊢
      rw [sorted_cons]
      refine ⟨?_, hs⟩
      intro b hb
      rcases mem_cons.mp hb with rfl | hb
      · exact h
      · exact lt_trans h (rel_of_sorted_cons hs _ hb)
    · rw [if_neg (by simp [h]), if_pos h]
      simpa using hs
    · rw [if_neg (by simp [not_lt_of_gt h]), if_neg (by intro e; exact absurd e.symm (ne_of_lt h))]
      simp only [map_cons] at hs ⊢
      rw [sorted_cons]
      refine ⟨?_, ih hs.of_cons⟩
      intro b hb
      rcases mem_keys_insertPos.mp hb with rfl | hb
      · exact h
      · exact rel_of_sorted_cons hs _ hb

theorem groupOf_insertPos {k k' : K} {i : Nat} : ∀ {m : List (K × List Nat)},
    Sorted (· < ·) (m.map Prod.fst) →
    groupOf (insertPos k i m) k' =
      if k' = k then groupOf m k ++ [i] else groupOf m k' := by
  intro m
  induction m with
  | nil =>
    intro _
    by_cases h : k' = k
    · rw [if_pos h, groupOf_nil]
      subst h
      simp [insertPos, groupOf_cons_self]
    · rw [if_neg h, groupOf_nil]
      simp only [insertPos]
      rw [groupOf_cons_ne (fun e => h e.symm), groupOf_nil]
  | cons pr rest ih =>
    intro hs
    obtain ⟨k₀, g₀⟩ := pr
    rw [insertPos]
    rcases lt_trichotomy k k₀ with h | h | h
    · rw [if_pos h]
      by_cases hk : k' = k
      · subst hk
        rw [if_pos rfl, groupOf_cons_self, groupOf_eq_nil_of_forall_ne, nil_append]
        intro q hq
        rcases mem_cons.mp hq with rfl | hq
        · exact ne_of_gt h
        · refine ne_of_gt (lt_trans h ?_)
          have : q.1 ∈ rest.map Prod.fst := mem_map_of_mem Prod.fst hq
          exact rel_of_sorted_cons (by simpa using hs) _ this
      · rw [if_neg hk, groupOf_cons_ne (fun e => hk e.symm)]
    · rw [if_neg (by simp [h]), if_pos h]
      subst h
      by_cases hk : k' = k
      · subst hk
        rw [if_pos rfl, groupOf_cons_self, groupOf_cons_self]
      · rw [if_neg hk, groupOf_cons_ne (fun e => hk e.symm),
          groupOf_cons_ne (fun e => hk e.symm)]
    · rw [if_neg (by simp [not_lt_of_gt h]), if_neg (by intro e; exact absurd e.symm (ne_of_lt h))]
      by_cases hk0 : k₀ = k'
      · subst hk0
        have hk : ¬ k₀ = k := ne_of_lt h
        rw [if_neg hk, groupOf_cons_self, groupOf_cons_self]
      · rw [groupOf_cons_ne hk0, ih (by simpa using hs.of_cons)]
        by_cases hk : k' = k
        · rw [if_pos hk, if_pos hk, groupOf_cons_ne (ne_of_lt h)]
        · rw [if_neg hk, if_neg hk, groupOf_cons_ne hk0]

end IndexMap

/-! ### `SortedIndex::new`: characterizing the built map -/

section IndexBuild

variable {T : Type u} {K : Type v} [LinearOrder K]

theorem buildPairs_keys_sorted (proj : T → K) : ∀ (l : List T) (i : Nat) (acc : List (K × List Nat)),
    Sorted (· < ·) (acc.map Prod.fst) →
    Sorted (· < ·) ((buildPairs proj i l acc).map Prod.fst) := by
  intro l
  induction l with
  | nil => intro i acc h; rw [buildPairs]; exact h
  | cons t rest ih =>
    intro i acc h
    rw [buildPairs]
    exact ih (i + 1) _ (insertPos_keys_sorted h)

theorem groupOf_buildPairs (proj : T → K) (k : K) : ∀ (l : List T) (i : Nat) (acc : List (K × List Nat)),
    Sorted (· < ·) (acc.map Prod.fst) →
    groupOf (buildPairs proj i l acc) k =
      groupOf acc k ++ positionsSat (fun t => decide (proj t = k)) i l := by
  intro l
  induction l with
  | nil => intro i acc h; rw [buildPairs, positionsSat, append_nil]
  | cons t rest ih =>
    intro i acc h
    rw [buildPairs, ih (i + 1) _ (insertPos_keys_sorted h), groupOf_insertPos h, positionsSat]
    by_cases hq : proj t = k
    · rw [if_pos hq.symm, if_pos (decide_eq_true hq), append_assoc, singleton_append, hq]
    · rw [if_neg (fun e => hq e.symm), if_neg (by simpa using hq)]

theorem new_keys_sorted (store : List T) (proj : T → K) :
    Sorted (· < ·) ((SortedIndex.new store proj).pairs.map Prod.fst) :=
  buildPairs_keys_sorted proj store 0 [] (by simp)

theorem new_keys_nodup (store : List T) (proj : T → K) :
    ((SortedIndex.new store proj).pairs.map Prod.fst).Nodup :=
  (new_keys_sorted store proj).nodup

theorem groupOf_new (store : List T) (proj : T → K) (k : K) :
    groupOf (SortedIndex.new store proj).pairs k =
      positionsSat (fun t => decide (proj t = k)) 0 store := by
  show groupOf (buildPairs proj 0 store []) k = _
  rw [groupOf_buildPairs proj k store 0 [] (by simp), groupOf_nil, nil_append]

theorem mem_group_new {store : List T} {proj : T → K} {k : K} {p : Nat} :
    p ∈ groupOf (SortedIndex.new store proj).pairs k ↔
      ∃ h : p < store.length, proj (store.get ⟨p, h⟩) = k := by
  rw [groupOf_new, mem_positionsSat]
  constructor
  · rintro ⟨j, h, hpj, hq⟩
    have hj : p = j := by omega
    subst hj
    exact ⟨h, by simpa using hq⟩
  · rintro ⟨h, hq⟩
    exact ⟨p, h, by omega, by simpa using hq⟩

theorem new_entry_group {store : List T} {proj : T → K} {pr : K × List Nat}
    (h : pr ∈ (SortedIndex.new store proj).pairs) :
    pr.2 = groupOf (SortedIndex.new store proj).pairs pr.1 :=
  (groupOf_eq_of_mem (new_keys_nodup store proj) (show (pr.1, pr.2) ∈ _ from h)).symm

theorem new_group_sorted (store : List T) (proj : T → K) (k : K) :
    Sorted (· < ·) (groupOf (SortedIndex.new store proj).pairs k) := by
  rw [groupOf_new]
  exact positionsSat_sorted store 0

theorem new_group_disjoint {store : List T} {proj : T → K} {k k' : K} (hne : k ≠ k') :
    List.Disjoint (groupOf (SortedIndex.new store proj).pairs k)
      (groupOf (SortedIndex.new store proj).pairs k') := by
  intro p hp hp'
  rcases mem_group_new.mp hp with ⟨h1, e1⟩
  rcases mem_group_new.mp hp' with ⟨h2, e2⟩
  exact hne (e1 ▸ e2 ▸ rfl)

theorem new_flat_nodup {store : List T} {proj : T → K} {L : List (K × List Nat)}
    (hL : L <+ (SortedIndex.new store proj).pairs) :
    (L.flatMap (fun pr => pr.2)).Nodup := by
  have hflat : L.flatMap (fun pr => pr.2) = (L.map (fun pr => pr.2)).flatten := by
    simp [List.flatMap]
  rw [hflat, nodup_flatten]
  constructor
  · intro g hg
    rcases mem_map.mp hg with ⟨pr, hpr, rfl⟩
    rw [new_entry_group (hL.subset hpr), groupOf_new]
    exact positionsSat_nodup store 0
  · have h1 : ((SortedIndex.new store proj).pairs).Pairwise (fun a b => a.1 < b.1) :=
      (pairwise_map).mp (new_keys_sorted store proj)
    have hpw : ((SortedIndex.new store proj).pairs).Pairwise
        (fun a b => List.Disjoint a.2 b.2) := by
      refine h1.imp_of_mem ?_
      intro a b ha hb hlt
      rw [new_entry_group ha, new_entry_group hb]
      exact new_group_disjoint (ne_of_lt hlt)
    exact (pairwise_map).mpr (hpw.sublist hL)

end IndexBuild

/-! ### Range queries over a built index -/

section RangeLemmas

variable {T : Type u} {K : Type v} [LinearOrder K]

theorem mem_rangePositions {store : List T} {proj : T → K} {lb ub : RangeBound K} {p : Nat} :
    p ∈ (SortedIndex.new store proj).rangePositions lb ub ↔
      ∃ h : p < store.length,
        lb.satLower (proj (store.get ⟨p, h⟩)) ∧ ub.satUpper (proj (store.get ⟨p, h⟩)) := by
  rw [SortedIndex.rangePositions, mem_flatMap]
  constructor
  · rintro ⟨pr, hpr, hp⟩
    rcases mem_filter.mp hpr with ⟨hmem, hbound⟩
    have hgrp : p ∈ groupOf (SortedIndex.new store proj).pairs pr.1 := by
      rw [← new_entry_group hmem]
      exact hp
    rcases mem_group_new.mp hgrp with ⟨h, hk⟩
    rcases Bool.and_eq_true .. |>.mp hbound with ⟨hb1, hb2⟩
    exact ⟨h, by rw [hk]; exact hb1, by rw [hk]; exact hb2⟩
  · rintro ⟨h, h1, h2⟩
    have hgrp : p ∈ groupOf (SortedIndex.new store proj).pairs (proj (store.get ⟨p, h⟩)) :=
      mem_group_new.mpr ⟨h, rfl⟩
    rcases mem_groupOf_exists hgrp with ⟨g, hmem, hpg⟩
    refine ⟨(proj (store.get ⟨p, h⟩), g), mem_filter.mpr ⟨hmem, ?_⟩, hpg⟩
    simp only [Bool.and_eq_true]
    exact ⟨h1, h2⟩

theorem rangePositions_nodup (store : List T) (proj : T → K) (lb ub : RangeBound K) :
    ((SortedIndex.new store proj).rangePositions lb ub).Nodup :=
  new_flat_nodup (filter_sublist _)

/-- The Position Set invariant of spec §8: strictly ascending, duplicate
free, every position below the store length. -/
def PosInvariant (n : Nat) (f : DataFilter) : Prop :=
  Sorted (· < ·) f.indices ∧ f.indices.Nodup ∧ ∀ p ∈ f.indices, p < n

theorem rangeFilter_invariant (store : List T) (proj : T → K) (lb ub : RangeBound K) :
    PosInvariant store.length
      (DataFilter.from_unsorted ((SortedIndex.new store proj).rangePositions lb ub)) := by
  have hnd := rangePositions_nodup store proj lb ub
  refine ⟨from_unsorted_sorted hnd, from_unsorted_nodup hnd, ?_⟩
  intro p hp
  rw [mem_from_unsorted] at hp
  rcases mem_rangePositions.mp hp with ⟨h, _⟩
  exact h

theorem rangeFilter_eq_positionsSat (store : List T) (proj : T → K) (lb ub : RangeBound K) :
    (DataFilter.from_unsorted ((SortedIndex.new store proj).rangePositions lb ub)).indices =
      positionsSat (fun t => lb.satLower (proj t) && ub.satUpper (proj t)) 0 store := by
  apply eq_of_sorted_of_mem_iff
    (from_unsorted_sorted (rangePositions_nodup store proj lb ub))
    (positionsSat_sorted store 0)
  intro a
  rw [mem_from_unsorted, mem_rangePositions, mem_positionsSat]
  constructor
  · rintro ⟨h, h1, h2⟩
    refine ⟨a, h, by omega, ?_⟩
    simp only [Bool.and_eq_true]
    exact ⟨h1, h2⟩
  · rintro ⟨j, h, hpj, hq⟩
    have : a = j := by omega
    subst this
    rcases Bool.and_eq_true .. |>.mp hq with ⟨hb1, hb2⟩
    exact ⟨h, hb1, hb2⟩

theorem filter_eq_eq (idx : SortedIndex K) (v : K) :
    idx.filter_eq v = DataFilter.from_unsorted (groupOf idx.pairs v) := by
  unfold SortedIndex.filter_eq groupOf
  cases hf : idx.pairs.find? (fun p => decide (p.1 = v)) <;> rfl

theorem mem_filter_eq {store : List T} {proj : T → K} {v : K} {p : Nat} :
    p ∈ ((SortedIndex.new store proj).filter_eq v).indices ↔
      ∃ h : p < store.length, proj (store.get ⟨p, h⟩) = v := by
  rw [filter_eq_eq, mem_from_unsorted, mem_group_new]

theorem filter_eq_invariant (store : List T) (proj : T → K) (v : K) :
    PosInvariant store.length ((SortedIndex.new store proj).filter_eq v) := by
  rw [filter_eq_eq]
  have hnd : (groupOf (SortedIndex.new store proj).pairs v).Nodup := by
    rw [groupOf_new]
    exact positionsSat_nodup store 0
  refine ⟨from_unsorted_sorted hnd, from_unsorted_nodup hnd, ?_⟩
  intro p hp
  rw [mem_from_unsorted] at hp
  rcases mem_group_new.mp hp with ⟨h, _⟩
  exact h

end RangeLemmas

/-! ### Invariant preservation by the combinators -/

theorem and_invariant {n : Nat} {a b : DataFilter} (ha : PosInvariant n a)
    (hb : PosInvariant n b) : PosInvariant n (a &&& b) := by
  rw [DataFilter.and_def]
  refine ⟨bitandL_sorted ha.1 _, (bitandL_sorted ha.1 _).nodup, ?_⟩
  intro p hp
  exact ha.2.2 p ((mem_bitandL ha.1 hb.1).mp hp).1

theorem or_invariant {n : Nat} {a b : DataFilter} (ha : PosInvariant n a)
    (hb : PosInvariant n b) : PosInvariant n (a ||| b) := by
  rw [DataFilter.or_def]
  refine ⟨bitorL_sorted _ _ ha.1 hb.1, (bitorL_sorted _ _ ha.1 hb.1).nodup, ?_⟩
  intro p hp
  rcases (mem_bitorL _ _).mp hp with h | h
  · exact ha.2.2 p h
  · exact hb.2.2 p h

theorem default_invariant (n : Nat) : PosInvariant n DataFilter.default :=
  ⟨sorted_nil, nodup_nil, fun p hp => absurd hp (not_mem_nil p)⟩

/-! ### Small helpers for the claim statements -/

theorem DataFilter.ext {a b : DataFilter} (h : a.indices = b.indices) : a = b := by
  cases a
  cases b
  cases h
  rfl

theorem bitandL_nil_right : ∀ xs : List Nat, bitandL xs [] = [] := by
  intro xs
  cases xs with
  | nil => rfl
  | cons x xs => rw [bitandL, skipBelow]

theorem filter_range_eq_some {K : Type v} [LinearOrder K] {idx : SortedIndex K}
    {lb ub : RangeBound K} {f : DataFilter} (h : idx.filter_range lb ub = some f) :
    rangeValid lb ub = true ∧ f = DataFilter.from_unsorted (idx.rangePositions lb ub) := by
  rw [SortedIndex.filter_range] at h
  cases hv : rangeValid lb ub with
  | false => rw [hv] at h; exact absurd h (by simp)
  | true =>
    rw [hv] at h
    simp only [cond_true, Option.some.injEq] at h
    exact ⟨rfl, h.symm⟩

theorem filter_range_of_valid {K : Type v} [LinearOrder K] (idx : SortedIndex K)
    {lb ub : RangeBound K} (hv : rangeValid lb ub = true) :
    idx.filter_range lb ub = some (DataFilter.from_unsorted (idx.rangePositions lb ub)) := by
  rw [SortedIndex.filter_range, hv, cond_true]

/-- The ages column of the ten-person fixture of src/tests/test.rs, with
record positions 0..9. -/
def agesFixture : List Nat := [32, 58, 75, 16, 28, 42, 37, 28, 8, 63]

instance posInvariantDecidable (n : Nat) (f : DataFilter) : Decidable (PosInvariant n f) :=
  decidable_of_iff
    (List.Pairwise (· < ·) f.indices ∧ f.indices.Nodup ∧ ∀ p ∈ f.indices, p < n) Iff.rfl

end QS

open QS List

/-- C1: every Position Set produced by a public operation over an index
built from a store of `n` records — `filter_eq`, a succeeding
`filter_range` or `filter_between`, `filter_gt`, `filter_gte`,
`filter_lt`, `filter_lte`, the `&` and `|` combinators on invariant
inputs, and `DataFilter::default` — is strictly ascending, duplicate-free,
and all its values lie in `[0, n)`. -/
theorem C1_position_set_invariants {T : Type u} {K : Type v} [LinearOrder K]
    (store : List T) (proj : T → K) :
    (∀ v, PosInvariant store.length ((SortedIndex.new store proj).filter_eq v)) ∧
    (∀ lb ub f, (SortedIndex.new store proj).filter_range lb ub = some f →
      PosInvariant store.length f) ∧
    (∀ l u f, (SortedIndex.new store proj).filter_between l u = some f →
      PosInvariant store.length f) ∧
    (∀ l, PosInvariant store.length ((SortedIndex.new store proj).filter_gt l)) ∧
    (∀ l, PosInvariant store.length ((SortedIndex.new store proj).filter_gte l)) ∧
    (∀ u, PosInvariant store.length ((SortedIndex.new store proj).filter_lt u)) ∧
    (∀ u, PosInvariant store.length ((SortedIndex.new store proj).filter_lte u)) ∧
    (∀ a b, PosInvariant store.length a → PosInvariant store.length b →
      PosInvariant store.length (a &&& b) ∧ PosInvariant store.length (a ||| b)) ∧
    PosInvariant store.length DataFilter.default := by
  refine ⟨fun v => filter_eq_invariant store proj v, ?_, ?_, ?_, ?_, ?_, ?_, ?_,
    default_invariant store.length⟩
  · intro lb ub f h
    rcases filter_range_eq_some h with ⟨_, rfl⟩
    exact rangeFilter_invariant store proj lb ub
  · intro l u f h
    rcases filter_range_eq_some h with ⟨_, rfl⟩
    exact rangeFilter_invariant store proj _ _
  · exact fun l => rangeFilter_invariant store proj _ _
  · exact fun l => rangeFilter_invariant store proj _ _
  · exact fun u => rangeFilter_invariant store proj _ _
  · exact fun u => rangeFilter_invariant store proj _ _
  · exact fun a b ha hb => ⟨and_invariant ha hb, or_invariant ha hb⟩

/-- Witness for C1 on the test fixture: a succeeding `filter_between` and a
combinator application, with the implications' hypotheses discharged
concretely. -/
theorem C1_position_set_invariants_witness :
    PosInvariant 10 ((SortedIndex.new agesFixture id).filter_eq 28) ∧
    PosInvariant 10 (DataFilter.mk [2, 9] &&& DataFilter.mk [0, 2, 5]) := by
  have h := C1_position_set_invariants agesFixture id
  exact ⟨h.1 28, (h.2.2.2.2.2.2.2.1 ⟨[2, 9]⟩ ⟨[0, 2, 5]⟩ (by decide) (by decide)).1⟩

/-- C3: on Position Sets satisfying the ascending invariant, `&` computes
exactly the set intersection (duplicate-freeness follows from strict
ascent). -/
theorem C3_and_is_intersection {a b : DataFilter} (ha : Sorted (· < ·) a.indices)
    (hb : Sorted (· < ·) b.indices) :
    ∀ p : Nat, p ∈ (a &&& b).indices ↔ p ∈ a.indices ∧ p ∈ b.indices := by
  intro p
  rw [DataFilter.and_def]
  exact mem_bitandL ha hb

/-- Witness for C3 at concrete sorted operands. -/
theorem C3_and_is_intersection_witness :
    Sorted (· < ·) (DataFilter.mk [1, 3, 5]).indices ∧
    (3 ∈ (DataFilter.mk [1, 3, 5] &&& DataFilter.mk [3, 4, 5]).indices ↔
      3 ∈ (DataFilter.mk [1, 3, 5]).indices ∧ 3 ∈ (DataFilter.mk [3, 4, 5]).indices) :=
  ⟨by decide, C3_and_is_intersection (by decide) (by decide) 3⟩

/-- C4: on Position Sets satisfying the ascending invariant, `|` computes
exactly the set union, and the merge-time dedup leaves each position
exactly once (the result is duplicate-free). -/
theorem C4_or_is_union {a b : DataFilter} (ha : Sorted (· < ·) a.indices)
    (hb : Sorted (· < ·) b.indices) :
    (∀ p : Nat, p ∈ (a ||| b).indices ↔ p ∈ a.indices ∨ p ∈ b.indices) ∧
    (a ||| b).indices.Nodup := by
  constructor
  · intro p
    rw [DataFilter.or_def]
    exact mem_bitorL a.indices b.indices
  · rw [DataFilter.or_def]
    exact bitorL_nodup ha hb

/-- Witness for C4 at concrete sorted operands. -/
theorem C4_or_is_union_witness :
    (5 ∈ (DataFilter.mk [1, 3, 5] ||| DataFilter.mk [3, 4, 5]).indices ↔
      5 ∈ (DataFilter.mk [1, 3, 5]).indices ∨ 5 ∈ (DataFilter.mk [3, 4, 5]).indices) ∧
    (DataFilter.mk [1, 3, 5] ||| DataFilter.mk [3, 4, 5]).indices.Nodup :=
  ⟨(C4_or_is_union (by decide) (by decide)).1 5, (C4_or_is_union (by decide) (by decide)).2⟩

/-- C10: intersecting with the empty filter annihilates, on either side. -/
theorem C10_and_default_annihilates {a : DataFilter} (ha : Sorted (· < ·) a.indices) :
    a &&& DataFilter.default = DataFilter.default ∧
    DataFilter.default &&& a = DataFilter.default := by
  constructor <;> apply DataFilter.ext
  · exact bitandL_nil_right a.indices
  · rfl

/-- Witness for C10 at a concrete sorted operand. -/
theorem C10_and_default_annihilates_witness :
    DataFilter.mk [2, 9] &&& DataFilter.default = DataFilter.default ∧
    DataFilter.default &&& DataFilter.mk [2, 9] = DataFilter.default :=
  C10_and_default_annihilates (by decide)

theorem mem_rangeFilter {T : Type u} {K : Type v} [LinearOrder K] {store : List T}
    {proj : T → K} {lb ub : RangeBound K} {p : Nat} :
    p ∈ (DataFilter.from_unsorted ((SortedIndex.new store proj).rangePositions lb ub)).indices ↔
      ∃ h : p < store.length,
        lb.satLower (proj (store.get ⟨p, h⟩)) ∧ ub.satUpper (proj (store.get ⟨p, h⟩)) := by
  rw [mem_from_unsorted, mem_rangePositions]

/-- C2 counterexample: on a reversed bound pair the underlying
`BTreeMap::range` panics (modelled as `none`), so `filter_range` does not
return the (empty) set of in-bounds positions that the claim, quantified
over every bound pair, requires. -/
theorem C2_counterexample :
    (SortedIndex.new agesFixture id).filter_range (.included 1) (.included 0) = none := by
  decide

/-- C2 (amended): for every bound pair forming a valid range (not
reversed, and not equal with both ends exclusive), `filter_range` returns
exactly the positions of the records whose projected key lies within the
bounds, arranged in ascending position order. -/
theorem C2_filter_range_exact {T : Type u} {K : Type v} [LinearOrder K]
    (store : List T) (proj : T → K) (lb ub : RangeBound K)
    (hv : rangeValid lb ub = true) :
    ∃ f, (SortedIndex.new store proj).filter_range lb ub = some f ∧
      Sorted (· < ·) f.indices ∧
      ∀ p : Nat, p ∈ f.indices ↔ ∃ h : p < store.length,
        lb.satLower (proj (store.get ⟨p, h⟩)) ∧ ub.satUpper (proj (store.get ⟨p, h⟩)) := by
  refine ⟨_, filter_range_of_valid _ hv, (rangeFilter_invariant store proj lb ub).1, ?_⟩
  intro p
  exact mem_rangeFilter

/-- Witness for C2 on the test fixture with the range `[30, 50]`. -/
theorem C2_filter_range_exact_witness :
    rangeValid (RangeBound.included (30 : Nat)) (.included 50) = true ∧
    ∃ f, (SortedIndex.new agesFixture id).filter_range (.included 30) (.included 50) = some f ∧
      Sorted (· < ·) f.indices ∧
      ∀ p : Nat, p ∈ f.indices ↔ ∃ h : p < agesFixture.length,
        RangeBound.satLower (.included 30) (id (agesFixture.get ⟨p, h⟩)) ∧
        RangeBound.satUpper (.included 50) (id (agesFixture.get ⟨p, h⟩)) :=
  ⟨by decide, C2_filter_range_exact agesFixture id (.included 30) (.included 50) (by decide)⟩

/-- C5 counterexample: with a reversed argument pair `filter_between`
panics (modelled as `none`) while the intersection of `filter_gte` and
`filter_lte` is the empty Position Set, so the two sides differ. -/
theorem C5_counterexample :
    (SortedIndex.new agesFixture id).filter_between 1 0 ≠
      some ((SortedIndex.new agesFixture id).filter_gte 1 &&&
        (SortedIndex.new agesFixture id).filter_lte 0) := by
  decide

/-- C5 (amended): whenever `l ≤ u`, `filter_between l u` succeeds and
equals `filter_gte l & filter_lte u`. -/
theorem C5_between_eq_gte_and_lte {T : Type u} {K : Type v} [LinearOrder K]
    (store : List T) (proj : T → K) (l u : K) (hlu : l ≤ u) :
    (SortedIndex.new store proj).filter_between l u =
      some ((SortedIndex.new store proj).filter_gte l &&&
        (SortedIndex.new store proj).filter_lte u) := by
  rw [SortedIndex.filter_between, filter_range_of_valid _ (by simp [rangeValid, hlu])]
  congr 1
  apply DataFilter.ext
  apply eq_of_sorted_of_mem_iff
  · exact (rangeFilter_invariant store proj _ _).1
  · rw [DataFilter.and_def]
    exact bitandL_sorted (rangeFilter_invariant store proj (.included l) .unbounded).1 _
  · intro a
    rw [DataFilter.and_def, SortedIndex.filter_gte, SortedIndex.filter_lte]
    rw [mem_bitandL (rangeFilter_invariant store proj (.included l) .unbounded).1
      (rangeFilter_invariant store proj .unbounded (.included u)).1]
    rw [mem_rangeFilter, mem_rangeFilter, mem_rangeFilter]
    constructor
    · rintro ⟨h, h1, h2⟩
      exact ⟨⟨h, h1, rfl⟩, ⟨h, rfl, h2⟩⟩
    · rintro ⟨⟨h, h1, -⟩, ⟨h', -, h2⟩⟩
      exact ⟨h, h1, h2⟩

/-- Witness for C5 on the test fixture with `l = 30 ≤ u = 50`. -/
theorem C5_between_eq_gte_and_lte_witness :
    (30 : Nat) ≤ 50 ∧
    (SortedIndex.new agesFixture id).filter_between 30 50 =
      some ((SortedIndex.new agesFixture id).filter_gte 30 &&&
        (SortedIndex.new agesFixture id).filter_lte 50) :=
  ⟨by decide, C5_between_eq_gte_and_lte agesFixture id 30 50 (by decide)⟩

/-- C6 counterexample: a reversed key range is not represented as an empty
Position Set — `filter_between 50 30` hits the `BTreeMap::range` panic
(modelled as `none`). -/
theorem C6_counterexample :
    (SortedIndex.new agesFixture id).filter_between 50 30 = none := by
  decide

/-- C6 (amended): no core operation panics except `filter_range` /
`filter_between` on an invalid range (reversed, or equal endpoints with
both bounds exclusive): every valid range succeeds, the four one-sided
range queries are total delegations of `filter_range`, an absent key
yields the empty filter, and a valid range matching no record yields an
empty Position Set — all covering the empty store and empty index
(length 0) as special cases. -/
theorem C6_no_panic_except_invalid_range {T : Type u} {K : Type v} [LinearOrder K]
    (store : List T) (proj : T → K) :
    (∀ lb ub, rangeValid lb ub = true →
      ∃ f, (SortedIndex.new store proj).filter_range lb ub = some f) ∧
    (∀ l u : K, l ≤ u → ∃ f, (SortedIndex.new store proj).filter_between l u = some f) ∧
    (∀ l, (SortedIndex.new store proj).filter_range (.excluded l) .unbounded =
      some ((SortedIndex.new store proj).filter_gt l)) ∧
    (∀ l, (SortedIndex.new store proj).filter_range (.included l) .unbounded =
      some ((SortedIndex.new store proj).filter_gte l)) ∧
    (∀ u, (SortedIndex.new store proj).filter_range .unbounded (.excluded u) =
      some ((SortedIndex.new store proj).filter_lt u)) ∧
    (∀ u, (SortedIndex.new store proj).filter_range .unbounded (.included u) =
      some ((SortedIndex.new store proj).filter_lte u)) ∧
    (∀ v, (∀ (p : Nat) (hp : p < store.length), proj (store.get ⟨p, hp⟩) ≠ v) →
      (SortedIndex.new store proj).filter_eq v = DataFilter.default) ∧
    (∀ lb ub, rangeValid lb ub = true →
      (∀ (p : Nat) (hp : p < store.length),
        ¬(lb.satLower (proj (store.get ⟨p, hp⟩)) ∧ ub.satUpper (proj (store.get ⟨p, hp⟩)))) →
      (SortedIndex.new store proj).filter_range lb ub = some DataFilter.default) := by
  refine ⟨?_, ?_, fun l => rfl, fun l => rfl, fun u => rfl, fun u => rfl, ?_, ?_⟩
  · intro lb ub hv
    exact ⟨_, filter_range_of_valid _ hv⟩
  · intro l u hlu
    exact ⟨_, filter_range_of_valid _ (by simp [rangeValid, hlu])⟩
  · intro v hv
    rw [filter_eq_eq, groupOf_new]
    have : positionsSat (fun t => decide (proj t = v)) 0 store = [] := by
      rw [eq_nil_iff_forall_not_mem]
      intro p hp
      rcases (mem_positionsSat store 0).mp hp with ⟨j, h, hpj, hq⟩
      exact hv j h (by simpa using hq)
    rw [this]
    rfl
  · intro lb ub hv hempty
    rw [filter_range_of_valid _ hv]
    congr 1
    apply DataFilter.ext
    show (DataFilter.from_unsorted _).indices = _
    have : (SortedIndex.new store proj).rangePositions lb ub = [] := by
      rw [eq_nil_iff_forall_not_mem]
      intro p hp
      rcases mem_rangePositions.mp hp with ⟨h, h1, h2⟩
      exact hempty p h ⟨h1, h2⟩
    rw [this]
    rfl

/-- Witness for C6 on the test fixture: a succeeding wide range, an absent
key, and a valid range matching no record. -/
theorem C6_no_panic_except_invalid_range_witness :
    (∃ f, (SortedIndex.new agesFixture id).filter_range (.included 0) (.included 100) = some f) ∧
    (SortedIndex.new agesFixture id).filter_eq 99 = DataFilter.default ∧
    (SortedIndex.new agesFixture id).filter_range (.included 90) (.included 100) =
      some DataFilter.default := by
  have h := C6_no_panic_except_invalid_range agesFixture id
  exact ⟨h.1 _ _ (by decide), h.2.2.2.2.2.2.1 99 (by decide),
    h.2.2.2.2.2.2.2 _ _ (by decide) (by decide)⟩

theorem mapM_getElem_of_bounds {T : Type u} (items : List T) : ∀ is : List Nat,
    (∀ p ∈ is, p < items.length) →
    ∃ l, is.mapM (fun v => items[v]?) = some l ∧ l.length = is.length ∧
      ∀ j : Nat, l[j]? = is[j]?.bind (fun p => items[p]?) := by
  intro is
  induction is with
  | nil =>
    intro _
    refine ⟨[], rfl, rfl, ?_⟩
    intro j
    simp
  | cons a as ih =>
    intro hb
    have ha : a < items.length := hb a (mem_cons_self _ _)
    obtain ⟨x, hx⟩ : ∃ x, items[a]? = some x := ⟨_, getElem?_eq_getElem ha⟩
    rcases ih (fun p hp => hb p (mem_cons_of_mem _ hp)) with ⟨l, hl, hlen, hj⟩
    refine ⟨x :: l, ?_, by simp [hlen], ?_⟩
    · rw [List.mapM_cons, hx, hl]
      rfl
    · intro j
      cases j with
      | zero => simp [hx]
      | succ j => simpa using hj j

/-- C9: whenever every position of a filter is below the store length, the
materialization `store.filter` is total (the `Vec` indexing panic is
unreachable) and yields exactly one record per filter position, in the
filter's order — its length is the filter's cardinality. -/
theorem C9_store_filter_total {T : Type u} (store : QueriableDataStore T) (f : DataFilter)
    (hf : ∀ p ∈ f.indices, p < store.items.length) :
    ∃ l, store.filter f = some l ∧ l.length = f.indices.length ∧
      ∀ j : Nat, l[j]? = f.indices[j]?.bind (fun p => store.items[p]?) :=
  mapM_getElem_of_bounds store.items f.indices hf

/-- Witness for C9 on the test fixture with filter positions `[2, 9]`. -/
theorem C9_store_filter_total_witness :
    (∀ p ∈ (DataFilter.mk [2, 9]).indices,
      p < (QueriableDataStore.mk agesFixture).items.length) ∧
    ∃ l, (QueriableDataStore.mk agesFixture).filter (DataFilter.mk [2, 9]) = some l ∧
      l.length = (DataFilter.mk [2, 9]).indices.length ∧
      ∀ j : Nat, l[j]? = (DataFilter.mk [2, 9]).indices[j]?.bind
        (fun p => (QueriableDataStore.mk agesFixture).items[p]?) :=
  ⟨by decide, C9_store_filter_total (QueriableDataStore.mk agesFixture) (DataFilter.mk [2, 9])
    (by decide)⟩

/-- C8 (spec-modelled): `first_n` / `last_n` return the union of the
position groups of the `n` smallest (respectively largest) keys — the
index's key sequence is ascending, so these are its first (last) `n`
entries — re-sorted to ascending position order; a selected key-group is
always included whole, and `first` / `last` are the `n = 1` instances. -/
theorem C8_first_last_select_whole_groups {T : Type u} {K : Type v} [LinearOrder K]
    (store : List T) (proj : T → K) (n : Nat) :
    Sorted (· < ·) ((SortedIndex.new store proj).pairs.map Prod.fst) ∧
    Sorted (· < ·) ((SortedIndex.new store proj).first_n n).indices ∧
    (∀ p : Nat, p ∈ ((SortedIndex.new store proj).first_n n).indices ↔
      ∃ pr ∈ (SortedIndex.new store proj).pairs.take n, p ∈ pr.2) ∧
    (∀ pr ∈ (SortedIndex.new store proj).pairs.take n, ∀ p ∈ pr.2,
      p ∈ ((SortedIndex.new store proj).first_n n).indices) ∧
    (SortedIndex.new store proj).first = (SortedIndex.new store proj).first_n 1 ∧
    Sorted (· < ·) ((SortedIndex.new store proj).last_n n).indices ∧
    (∀ p : Nat, p ∈ ((SortedIndex.new store proj).last_n n).indices ↔
      ∃ pr ∈ (SortedIndex.new store proj).pairs.drop
        ((SortedIndex.new store proj).pairs.length - n), p ∈ pr.2) ∧
    (∀ pr ∈ (SortedIndex.new store proj).pairs.drop
        ((SortedIndex.new store proj).pairs.length - n), ∀ p ∈ pr.2,
      p ∈ ((SortedIndex.new store proj).last_n n).indices) ∧
    (SortedIndex.new store proj).last = (SortedIndex.new store proj).last_n 1 := by
  have hfirst : ∀ p : Nat, p ∈ ((SortedIndex.new store proj).first_n n).indices ↔
      ∃ pr ∈ (SortedIndex.new store proj).pairs.take n, p ∈ pr.2 := by
    intro p
    rw [SortedIndex.first_n, mem_from_unsorted, mem_flatMap]
  have hlast : ∀ p : Nat, p ∈ ((SortedIndex.new store proj).last_n n).indices ↔
      ∃ pr ∈ (SortedIndex.new store proj).pairs.drop
        ((SortedIndex.new store proj).pairs.length - n), p ∈ pr.2 := by
    intro p
    rw [SortedIndex.last_n, mem_from_unsorted, mem_flatMap]
  refine ⟨new_keys_sorted store proj,
    from_unsorted_sorted (new_flat_nodup (take_sublist n _)), hfirst,
    ?_, rfl,
    from_unsorted_sorted (new_flat_nodup (drop_sublist _ _)), hlast,
    ?_, rfl⟩
  · intro pr hpr p hp
    exact (hfirst p).mpr ⟨pr, hpr, hp⟩
  · intro pr hpr p hp
    exact (hlast p).mpr ⟨pr, hpr, hp⟩

/-- The modelled `first` / `first_n` / `last` / `last_n` reproduce the
expected results of `test_first_last` in src/tests/test.rs on the age
fixture: positions 8 (age 8), {3, 8} (ages 16, 8), 2 (age 75) and
{2, 9} (ages 75, 63), each in ascending position order. -/
theorem first_last_match_fixture_tests :
    ((SortedIndex.new agesFixture id).first).indices = [8] ∧
    ((SortedIndex.new agesFixture id).first_n 2).indices = [3, 8] ∧
    ((SortedIndex.new agesFixture id).last).indices = [2] ∧
    ((SortedIndex.new agesFixture id).last_n 2).indices = [2, 9] := by
  decide

theorem naryGo_sublist : ∀ (ds : List Nat) (cursors : List (List Nat)),
    naryGo ds cursors <+ ds := by
  intro ds
  induction ds with
  | nil => intro cursors; simp [naryGo]
  | cons c cs ih =>
    intro cursors
    rw [naryGo]
    by_cases h : (cursors.map (skipBelow c)).all (fun l => decide (l.head? = some c)) = true
    · rw [if_pos h]
      exact (ih _).cons₂ c
    · rw [if_neg h]
      exact (ih _).cons c

theorem naryGo_sorted {ds : List Nat} (hds : Sorted (· < ·) ds)
    (cursors : List (List Nat)) : Sorted (· < ·) (naryGo ds cursors) :=
  hds.sublist (naryGo_sublist ds cursors)

theorem mem_naryGo {p : Nat} : ∀ (ds : List Nat) (cursors : List (List Nat)),
    Sorted (· < ·) ds → (∀ c ∈ cursors, Sorted (· < ·) c) →
    (p ∈ naryGo ds cursors ↔ p ∈ ds ∧ ∀ c ∈ cursors, p ∈ c) := by
  intro ds
  induction ds with
  | nil => intro cursors _ _; simp [naryGo]
  | cons d cs ih =>
    intro cursors hds hcs
    have hadv : ∀ c ∈ cursors.map (skipBelow d), Sorted (· < ·) c := by
      intro c hc
      rcases mem_map.mp hc with ⟨c0, hc0, rfl⟩
      exact skipBelow_sorted (hcs c0 hc0)
    have hall : ((cursors.map (skipBelow d)).all (fun l => decide (l.head? = some d)) = true) ↔
        ∀ c ∈ cursors, d ∈ c := by
      rw [all_eq_true]
      constructor
      · intro h c hc
        have hh := h (skipBelow d c) (mem_map_of_mem _ hc)
        exact (head_skipBelow (hcs c hc)).mp (by simpa using hh)
      · intro h l hl
        rcases mem_map.mp hl with ⟨c0, hc0, rfl⟩
        simpa using (head_skipBelow (hcs c0 hc0)).mpr (h c0 hc0)
    have htrans : p ∈ cs →
        ((∀ c ∈ cursors.map (skipBelow d), p ∈ c) ↔ ∀ c ∈ cursors, p ∈ c) := by
      intro hp
      have hdp : d < p := rel_of_sorted_cons hds _ hp
      constructor
      · intro h c hc
        have hh := h (skipBelow d c) (mem_map_of_mem _ hc)
        exact ((mem_skipBelow (hcs c hc)).mp hh).1
      · intro h l hl
        rcases mem_map.mp hl with ⟨c0, hc0, rfl⟩
        exact (mem_skipBelow (hcs c0 hc0)).mpr ⟨h c0 hc0, le_of_lt hdp⟩
    rw [naryGo]
    by_cases hA : (cursors.map (skipBelow d)).all (fun l => decide (l.head? = some d)) = true
    · rw [if_pos hA, mem_cons, ih _ hds.of_cons hadv]
      constructor
      · rintro (rfl | ⟨h1, h2⟩)
        · exact ⟨mem_cons_self _ _, hall.mp hA⟩
        · exact ⟨mem_cons_of_mem _ h1, (htrans h1).mp h2⟩
      · rintro ⟨h1, h2⟩
        rcases mem_cons.mp h1 with rfl | h1
        · exact Or.inl rfl
        · exact Or.inr ⟨h1, (htrans h1).mpr h2⟩
    · rw [if_neg hA, ih _ hds.of_cons hadv]
      constructor
      · rintro ⟨h1, h2⟩
        exact ⟨mem_cons_of_mem _ h1, (htrans h1).mp h2⟩
      · rintro ⟨h1, h2⟩
        rcases mem_cons.mp h1 with rfl | h1
        · exact absurd (hall.mpr h2) hA
        · exact ⟨h1, (htrans h1).mpr h2⟩

theorem foldAnd_go : ∀ (fs : List DataFilter) (f : DataFilter),
    Sorted (· < ·) f.indices → (∀ g ∈ fs, Sorted (· < ·) g.indices) →
    Sorted (· < ·) (fs.foldl (fun acc g => acc &&& g) f).indices ∧
    ∀ p : Nat, p ∈ (fs.foldl (fun acc g => acc &&& g) f).indices ↔
      p ∈ f.indices ∧ ∀ g ∈ fs, p ∈ g.indices := by
  intro fs
  induction fs with
  | nil =>
    intro f hf _
    exact ⟨hf, fun p => by simp⟩
  | cons g gs ih =>
    intro f hf hgs
    have hg : Sorted (· < ·) g.indices := hgs g (mem_cons_self _ _)
    have hfg : Sorted (· < ·) (f &&& g).indices := by
      rw [DataFilter.and_def]
      exact bitandL_sorted hf _
    have hrest : ∀ g' ∈ gs, Sorted (· < ·) g'.indices :=
      fun g' hg' => hgs g' (mem_cons_of_mem _ hg')
    rcases ih (f &&& g) hfg hrest with ⟨hs1, hm1⟩
    refine ⟨hs1, ?_⟩
    intro p
    rw [foldl_cons, hm1 p, DataFilter.and_def]
    show p ∈ bitandL f.indices g.indices ∧ _ ↔ _
    rw [mem_bitandL hf hg, forall_mem_cons, and_assoc]

/-- C7 (spec-modelled): the N-ary conjunction behind the multi-filter form
of `store.filter` interprets its unordered collection as the conjunction
of its members (membership is exactly simultaneous membership, with the
empty collection yielding the empty Position Set), and — despite the
cardinality-sort traversal heuristic — it equals the fold of pairwise
intersection over the collection in any ordering. -/
theorem C7_nary_conjunction_order_independent (fs fs' : List DataFilter)
    (hperm : fs.Perm fs') (hs : ∀ f ∈ fs, Sorted (· < ·) f.indices) :
    naryAnd fs = foldAnd fs' ∧
    ∀ p : Nat, p ∈ (naryAnd fs).indices ↔ fs ≠ [] ∧ ∀ f ∈ fs, p ∈ f.indices := by
  have hsortp : sortByLen fs ~ fs := perm_insertionSort _ fs
  have hmemS : ∀ f ∈ sortByLen fs, Sorted (· < ·) f.indices :=
    fun f hf => hs f (hsortp.subset hf)
  have hchar : Sorted (· < ·) (naryAnd fs).indices ∧
      ∀ p : Nat, p ∈ (naryAnd fs).indices ↔
        (sortByLen fs ≠ [] ∧ ∀ f ∈ sortByLen fs, p ∈ f.indices) := by
    cases hsb : sortByLen fs with
    | nil =>
      rw [naryAnd, hsb]
      exact ⟨sorted_nil, fun p => by simp [DataFilter.default]⟩
    | cons f rest =>
      rw [naryAnd, hsb]
      have hf : Sorted (· < ·) f.indices := hmemS f (by rw [hsb]; exact mem_cons_self _ _)
      have hrest : ∀ c ∈ rest.map (fun g => g.indices), Sorted (· < ·) c := by
        intro c hc
        rcases mem_map.mp hc with ⟨g, hg, rfl⟩
        exact hmemS g (by rw [hsb]; exact mem_cons_of_mem _ hg)
      refine ⟨naryGo_sorted hf _, ?_⟩
      intro p
      show p ∈ naryGo f.indices (rest.map fun g => g.indices) ↔ _
      rw [mem_naryGo _ _ hf hrest]
      constructor
      · rintro ⟨h1, h2⟩
        refine ⟨by simp, ?_⟩
        intro g hg
        rcases mem_cons.mp hg with rfl | hg
        · exact h1
        · exact h2 g.indices (mem_map_of_mem _ hg)
      · rintro ⟨-, h2⟩
        refine ⟨h2 f (mem_cons_self _ _), ?_⟩
        intro c hc
        rcases mem_map.mp hc with ⟨g, hg, rfl⟩
        exact h2 g (mem_cons_of_mem _ hg)
  have hlen : (sortByLen fs).length = fs.length := hsortp.length_eq
  have hne : sortByLen fs = [] ↔ fs = [] := by
    rw [← length_eq_zero, ← length_eq_zero, hlen]
  constructor
  · cases fs' with
    | nil =>
      have hfs : fs = [] := hperm.eq_nil
      subst hfs
      rfl
    | cons g gs =>
      have hg : Sorted (· < ·) g.indices := hs g (hperm.mem_iff.mpr (mem_cons_self _ _))
      have hgs : ∀ g' ∈ gs, Sorted (· < ·) g'.indices :=
        fun g' hg' => hs g' (hperm.mem_iff.mpr (mem_cons_of_mem _ hg'))
      rcases foldAnd_go gs g hg hgs with ⟨hsfold, hmfold⟩
      apply DataFilter.ext
      apply eq_of_sorted_of_mem_iff hchar.1 hsfold
      intro a
      rw [hchar.2 a, hmfold a]
      constructor
      · rintro ⟨-, h2⟩
        have hall : ∀ f ∈ fs, a ∈ f.indices := fun f hf => h2 f (hsortp.mem_iff.mpr hf)
        exact ⟨hall g (hperm.mem_iff.mpr (mem_cons_self _ _)),
          fun g' hg' => hall g' (hperm.mem_iff.mpr (mem_cons_of_mem _ hg'))⟩
      · rintro ⟨h1, h2⟩
        have hall : ∀ f ∈ fs, a ∈ f.indices := by
          intro f hf
          rcases mem_cons.mp (hperm.mem_iff.mp hf) with rfl | hf'
          · exact h1
          · exact h2 f hf'
        refine ⟨?_, fun f hf => hall f (hsortp.subset hf)⟩
        intro h0
        rw [hne] at h0
        subst h0
        exact absurd hperm.symm.eq_nil (by simp)
  · intro p
    rw [hchar.2 p]
    constructor
    · rintro ⟨h1, h2⟩
      exact ⟨fun h0 => h1 (hne.mpr h0), fun f hf => h2 f (hsortp.mem_iff.mpr hf)⟩
    · rintro ⟨h1, h2⟩
      exact ⟨fun h0 => h1 (hne.mp h0), fun f hf => h2 f (hsortp.subset hf)⟩

/-- Witness for C7: three concrete Position Sets and a reordering of
them; the modelled N-ary conjunction equals the fold of `&` over the
reordered collection. -/
theorem C7_nary_conjunction_order_independent_witness :
    (([⟨[3, 5, 7]⟩, ⟨[1, 3, 5, 7]⟩, ⟨[5, 7, 9]⟩] : List DataFilter).Perm
      [⟨[5, 7, 9]⟩, ⟨[3, 5, 7]⟩, ⟨[1, 3, 5, 7]⟩]) ∧
    naryAnd [⟨[3, 5, 7]⟩, ⟨[1, 3, 5, 7]⟩, ⟨[5, 7, 9]⟩] =
      foldAnd [⟨[5, 7, 9]⟩, ⟨[3, 5, 7]⟩, ⟨[1, 3, 5, 7]⟩] :=
  ⟨by decide,
    (C7_nary_conjunction_order_independent _ _ (by decide) (by decide)).1⟩
